import Mathlib

/-!
Verification of the identifier-splitting library (Samurai and GenTest
splitters, Basic expander) against its natural-language specification.

The Go source is embedded shallowly:

* Machine floats (float64) are modelled by `GFloat`: NaN, a signed
  infinity, or a finite value carried exactly as a fraction `Frac` (an
  integer numerator over a positive integer denominator, kept
  unreduced so that every operation is kernel-computable; the bridge
  lemmas `Frac.toRat_add`, `Frac.toRat_div`, `Frac.blt_iff` below prove
  the operations agree with rational arithmetic).  Signed zero is
  collapsed to a zero fraction; the only float zero consumed by the
  code on the paths studied here is the positive zero of Log10(1), so
  the collapse is faithful where it is used.
* The library functions math.Sqrt and math.Log10 are transcendental and
  have no exact rational implementation; they are carried as fields
  (`msqrt`, `mlog10`) of the `Samurai` context.  Every universally
  quantified theorem below therefore holds in particular for the real
  square root and logarithm; every concrete instance used in a
  counterexample or witness instantiates the fields only at arguments
  whose true square root or logarithm is itself rational, with that
  exact value.
* Go strings are Lean strings; the identifiers handled by the library
  are ASCII, where Go byte indexing and Lean character indexing agree.
* The recursive same-case procedure of the Samurai splitter examines
  cut position 0, where the recursive call receives the whole unchanged
  token; for frequency tables that give the empty string a high score
  the Go code therefore fails to terminate.  The embedding
  `sameCaseSplitF` is indexed by fuel, with `none` denoting a
  computation that has not finished within the given fuel; nested calls
  on strictly shorter tokens make fuel length-plus-one sufficient for
  every terminating run, and the divergence exhibited below holds for
  every fuel value.
-/

/-- An exact fraction: integer numerator over a positive integer
denominator, not necessarily reduced.  Used as the payload of finite
float values so that all arithmetic reduces inside the kernel. -/
structure Frac where
  num : ℤ
  den : ℤ
  dpos : 0 < den

instance : DecidableEq Frac := fun a b =>
  decidable_of_iff (a.num = b.num ∧ a.den = b.den) (by cases a; cases b; simp)

/-- The fraction n/1. -/
def Frac.ofInt (n : ℤ) : Frac := ⟨n, 1, Int.zero_lt_one⟩

/-- The rational value of a fraction. -/
def Frac.toRat (a : Frac) : ℚ := (a.num : ℚ) / (a.den : ℚ)

/-- Exact addition of fractions. -/
def Frac.add (a b : Frac) : Frac :=
  ⟨a.num * b.den + b.num * a.den, a.den * b.den, mul_pos a.dpos b.dpos⟩

/-- Exact division of fractions; the divisor sign is folded into the
numerator so that the denominator stays positive.  A zero divisor
yields zero, but the float model below tests for a zero divisor before
calling this. -/
def Frac.div (a b : Frac) : Frac :=
  if h : 0 < b.num then ⟨a.num * b.den, a.den * b.num, mul_pos a.dpos h⟩
  else if h2 : b.num < 0 then
    ⟨-(a.num * b.den), a.den * (-b.num), mul_pos a.dpos (by omega)⟩
  else ⟨0, 1, Int.zero_lt_one⟩

/-- Exact strict comparison of fractions. -/
def Frac.blt (a b : Frac) : Bool := decide (a.num * b.den < b.num * a.den)

/-- Exact non-strict comparison of fractions. -/
def Frac.ble (a b : Frac) : Bool := decide (a.num * b.den ≤ b.num * a.den)

/-- Model of a Go float64 value: NaN, a signed infinity (`inf true` is
positive infinity), or a finite value represented exactly. -/
inductive GFloat where
  | nan : GFloat
  | inf : Bool → GFloat
  | fin : Frac → GFloat
deriving DecidableEq

/-- Go float64 addition on the model: NaN propagates, infinities of
equal sign absorb, opposite infinities give NaN. -/
def GFloat.add : GFloat → GFloat → GFloat
  | .nan, _ => .nan
  | _, .nan => .nan
  | .inf a, .inf b => if a = b then .inf a else .nan
  | .inf a, .fin _ => .inf a
  | .fin _, .inf b => .inf b
  | .fin a, .fin b => .fin (a.add b)

/-- Go float64 division on the model: NaN propagates, inf/inf and 0/0
are NaN, nonzero/0 is an infinity carrying the numerator sign,
finite/inf is zero. -/
def GFloat.div : GFloat → GFloat → GFloat
  | .nan, _ => .nan
  | _, .nan => .nan
  | .inf _, .inf _ => .nan
  | .inf a, .fin b => if b.num < 0 then .inf (!a) else .inf a
  | .fin _, .inf _ => .fin (Frac.ofInt 0)
  | .fin a, .fin b =>
    if b.num = 0 then
      (if a.num = 0 then .nan else if 0 < a.num then .inf true else .inf false)
    else .fin (a.div b)

/-- Go float64 strict order: every comparison involving NaN is false. -/
def GFloat.lt : GFloat → GFloat → Bool
  | .nan, _ => false
  | _, .nan => false
  | .inf a, .inf b => !a && b
  | .inf a, .fin _ => !a
  | .fin _, .inf b => b
  | .fin a, .fin b => a.blt b

/-- Model of math.Max: NaN if either argument is NaN, otherwise the
larger argument. -/
def GFloat.gmax (x y : GFloat) : GFloat :=
  match x, y with
  | .nan, _ => .nan
  | _, .nan => .nan
  | _, _ => if GFloat.lt x y then y else x

/-- First i characters of a string (Go s[0:i] on ASCII input). -/
def strTake (s : String) (i : ℕ) : String := String.mk (s.data.take i)

/-- Characters of a string from position i on (Go s[i:len(s)]). -/
def strDrop (s : String) (i : ℕ) : String := String.mk (s.data.drop i)

/-- Characters a..b-1 of a string (Go s[a:b] on ASCII input). -/
def strSub (s : String) (a b : ℕ) : String := String.mk ((s.data.drop a).take (b - a))

/-- Concatenation of a list of strings in order, no separator. -/
def concatAll (l : List String) : String := l.foldr (fun a b => a ++ b) ""

/-- The string with every underscore removed. -/
def removeUnderscores (s : String) : String :=
  String.mk (s.data.filter (fun c => c ≠ '_'))

/-- Modelled from the spec: the repository type FrequencyTable is not
under src/.  Section 3 of the spec describes it as a read-only mapping
from word to a non-negative integer occurrence count together with a
separately tracked aggregate total occurrence count. -/
structure FrequencyTable where
  counts : List (String × ℕ)
  total : ℕ
deriving DecidableEq

/-- Modelled from the spec: lookup of the occurrence count of a word,
zero for unknown words (never an error). -/
def FrequencyTable.Frequency (t : FrequencyTable) (word : String) : ℕ :=
  (t.counts.lookup word).getD 0

/-- Modelled from the spec: the corpus-wide total occurrence count. -/
def FrequencyTable.TotalOccurrences (t : FrequencyTable) : ℕ := t.total

/-- The Samurai splitter context (samurai.go, struct Samurai): the two
frequency tables and the common prefix and suffix word sets, plus the
abstract models `msqrt` of math.Sqrt and `mlog10` of math.Log10 applied
to a natural-number total (see the file comment). -/
structure Samurai where
  localFreqTable : FrequencyTable
  globalFreqTable : FrequencyTable
  prefixes : List String
  suffixes : List String
  msqrt : GFloat → GFloat
  mlog10 : ℕ → GFloat

/-- samurai.go lines 139-146: score(word) is the local frequency of the
word plus its global frequency divided by log10 of the total local
occurrence count. -/
def Samurai.score (s : Samurai) (word : String) : GFloat :=
  GFloat.add (GFloat.fin (Frac.ofInt (s.localFreqTable.Frequency word)))
    (GFloat.div (GFloat.fin (Frac.ofInt (s.globalFreqTable.Frequency word)))
      (s.mlog10 s.localFreqTable.TotalOccurrences))

/-- samurai.go lines 149-152 (the method testing the common prefix
set): membership of the token in that set. -/
def Samurai.isPreffix (s : Samurai) (token : String) : Bool :=
  s.prefixes.contains token

/-- samurai.go lines 155-158 (method isSuffix): membership of the token
in the common suffix set. -/
def Samurai.isSuffix (s : Samurai) (token : String) : Bool :=
  s.suffixes.contains token

/-- One iteration of the loop body of sameCaseSplit (samurai.go lines
109-131), at loop index i, acting on the accumulated pair of maxScore
and splitToken; `recur` is the recursive call made by the branch in
which only shouldSplitLeft holds.  A `none` accumulator (an unfinished
recursive call) is passed through. -/
def scsStep (s : Samurai) (recur : String → GFloat → Option (List String))
    (token : String) (baseScore : GFloat)
    (acc : Option (GFloat × List String)) (i : ℕ) : Option (GFloat × List String) :=
  match acc with
  | none => none
  | some (maxScore, splitToken) =>
    let left := strTake token i
    let scoreLeft := s.score left
    let shouldSplitLeft := GFloat.lt (GFloat.gmax (s.score token) baseScore) (s.msqrt scoreLeft)
    let right := strDrop token i
    let scoreRight := s.score right
    let shouldSplitRight := GFloat.lt (GFloat.gmax (s.score token) baseScore) (s.msqrt scoreRight)
    let isPreffixOrSuffix := s.isPreffix left || s.isSuffix right
    if !isPreffixOrSuffix && shouldSplitLeft && shouldSplitRight then
      if GFloat.lt maxScore (GFloat.add scoreLeft scoreRight) then
        some (GFloat.add scoreLeft scoreRight, [left, right])
      else
        some (maxScore, splitToken)
    else if !isPreffixOrSuffix && shouldSplitLeft then
      match recur right baseScore with
      | none => none
      | some temp =>
        if 1 < temp.length then some (maxScore, left :: temp)
        else some (maxScore, splitToken)
    else
      some (maxScore, splitToken)

/-- sameCaseSplit (samurai.go lines 103-134), indexed by fuel: maxScore
starts at -1.0, splitToken starts as the whole token, and the loop runs
over i = 0,...,len(token)-1.  `none` means the computation did not
finish within the fuel. -/
def sameCaseSplitF (s : Samurai) : ℕ → String → GFloat → Option (List String)
  | 0, _, _ => none
  | fuel + 1, token, baseScore =>
    ((List.range token.data.length).foldl
      (scsStep s (fun t b => sameCaseSplitF s fuel t b) token baseScore)
      (some (GFloat.fin (Frac.ofInt (-1)), [token]))).map Prod.snd

/-- sameCaseSplit with the canonical fuel: nested calls on a strictly
shorter token strictly decrease the remaining length, so length-plus-one
fuel levels cover every terminating run of the Go code. -/
def Samurai.sameCaseSplit (s : Samurai) (token : String) (baseScore : GFloat) :
    Option (List String) :=
  sameCaseSplitF s (token.data.length + 1) token baseScore

/-- Insert an underscore between every adjacent pair of characters
satisfying p. -/
def insertMarkers (p : Char → Char → Bool) : List Char → List Char
  | [] => []
  | [c] => [c]
  | c1 :: c2 :: rest =>
    (if p c1 c2 then [c1, '_'] else [c1]) ++ insertMarkers p (c2 :: rest)

/-- A digit next to a letter, in either order. -/
def digitBoundary (c1 c2 : Char) : Bool :=
  (c1.isDigit && c2.isAlpha) || (c1.isAlpha && c2.isDigit)

/-- Modelled from the spec: addMarkersOnDigits is not under src/.
Section 4.2 of the spec: an explicit separator is inserted between any
digit and an adjacent letter. -/
def addMarkersOnDigits (token : String) : String :=
  String.mk (insertMarkers digitBoundary token.data)

/-- A lowercase letter followed by an uppercase letter. -/
def lowerUpperBoundary (c1 c2 : Char) : Bool := c1.isLower && c2.isUpper

/-- Modelled from the spec: addMarkersOnLowerToUpperCase is not under
src/.  Section 4.2 of the spec: an explicit separator is inserted
between a lowercase letter and a following uppercase letter. -/
def addMarkersOnLowerToUpperCase (token : String) : String :=
  String.mk (insertMarkers lowerUpperBoundary token.data)

/-- Split a character list at underscores, dropping empty segments; acc
accumulates the current segment in reverse. -/
def hardwordsAux : List Char → List Char → List (List Char)
  | [], acc => if acc.isEmpty then [] else [acc.reverse]
  | c :: rest, acc =>
    if c = '_' then
      (if acc.isEmpty then hardwordsAux rest []
       else acc.reverse :: hardwordsAux rest [])
    else hardwordsAux rest (c :: acc)

/-- Modelled from the spec: splitOnMarkers is not under src/.  Section
4.2 of the spec: a companion operation splits a marked token into its
separator-delimited hardwords, preserving order and dropping empty
segments. -/
def splitOnMarkers (token : String) : List String :=
  (hardwordsAux token.data []).map String.mk

/-- Leftmost match index of the pattern uppercase-then-lowercase,
mirroring FindStringIndex of the regex [A-Z][a-z] on ASCII input. -/
def findCamelIndexAux : ℕ → List Char → Option ℕ
  | _, [] => none
  | _, [_] => none
  | i, c1 :: c2 :: rest =>
    if c1.isUpper && c2.isLower then some i
    else findCamelIndexAux (i + 1) (c2 :: rest)

/-- Leftmost index of an uppercase letter followed by a lowercase
letter in the word, none if there is no such pair. -/
def findCamelIndex (word : String) : Option ℕ := findCamelIndexAux 0 word.data

/-- The camel-boundary block of Split (samurai.go lines 69-89): when the
word is longer than one character and contains an uppercase-lowercase
pair at index i, compare the camel score against the square root of the
alternative camel score and rewrite the word with an underscore at the
chosen cut.  The result only ever flows into the discarded
processedToken accumulator of Split. -/
def camelWord (s : Samurai) (word : String) : String :=
  match findCamelIndex word with
  | none => word
  | some i =>
    if 1 < word.data.length then
      let n := word.data.length - 1
      let camelScore :=
        if 0 < i then s.score (strSub word i n) else s.score (strSub word 0 n)
      let altCamelScore := s.score (strSub word (i + 1) n)
      if GFloat.lt (s.msqrt altCamelScore) camelScore then
        (if 0 < i then strSub word 0 (i - 1) ++ "_" ++ strSub word i n else word)
      else
        strSub word 0 i ++ "_" ++ strSub word (i + 1) n
    else word

/-- Split (samurai.go lines 61-101): mark digit and case boundaries,
build the processedToken string by the camel-boundary rule (that value
is never read afterwards: the declared known discrepancy), then
concatenate the same-case splittings of the separator-delimited
hardwords.  The Go error result is always nil and is not modelled;
`none` marks a same-case recursion that does not terminate. -/
def Samurai.Split (s : Samurai) (token : String) : Option (List String) :=
  let preprocessedToken := addMarkersOnLowerToUpperCase (addMarkersOnDigits token)
  let _processedToken :=
    (splitOnMarkers preprocessedToken).foldl
      (fun acc word => acc ++ "_" ++ camelWord s word) ""
  (splitOnMarkers preprocessedToken).foldl
    (fun acc word =>
      acc.bind (fun xs => (s.sameCaseSplit word (s.score word)).map (fun ys => xs ++ ys)))
    (some [])

/-- Concatenation, over a list of hardwords in order, of their same-case
splittings; undefined as soon as one of them is undefined. -/
def splitAllHardwords (s : Samurai) : List String → Option (List String)
  | [] => some []
  | w :: ws =>
    match s.sameCaseSplit w (s.score w), splitAllHardwords s ws with
    | some l, some rest => some (l ++ rest)
    | _, _ => none

/-- The specification description of Split: for each hardword of the
marked token, apply sameCaseSplit with the hardword score as base score
and concatenate the pieces across hardwords in order; no camel-boundary
computation takes part. -/
def Samurai.SplitSpec (s : Samurai) (token : String) : Option (List String) :=
  splitAllHardwords s
    (splitOnMarkers (addMarkersOnLowerToUpperCase (addMarkersOnDigits token)))

/-- The left part of the token at cut position i: token[0:i]. -/
def leftAt (token : String) (i : ℕ) : String := strTake token i

/-- The right part of the token at cut position i: token[i:n]. -/
def rightAt (token : String) (i : ℕ) : String := strDrop token i

/-- The shouldSplitLeft predicate of the spec at cut position i:
sqrt(score(left)) > max(score(token), baseScore). -/
def shouldSplitLeftAt (s : Samurai) (token : String) (baseScore : GFloat) (i : ℕ) : Bool :=
  GFloat.lt (GFloat.gmax (s.score token) baseScore) (s.msqrt (s.score (leftAt token i)))

/-- The shouldSplitRight predicate of the spec at cut position i:
sqrt(score(right)) > max(score(token), baseScore). -/
def shouldSplitRightAt (s : Samurai) (token : String) (baseScore : GFloat) (i : ℕ) : Bool :=
  GFloat.lt (GFloat.gmax (s.score token) baseScore) (s.msqrt (s.score (rightAt token i)))

/-- The skip condition of the spec at cut position i: the left part is
a common prefix or the right part is a common suffix. -/
def skippedAt (s : Samurai) (token : String) (i : ℕ) : Bool :=
  s.isPreffix (leftAt token i) || s.isSuffix (rightAt token i)

/-- The candidate score of the two-piece cut at position i:
score(left) + score(right). -/
def pairScoreAt (s : Samurai) (token : String) (i : ℕ) : GFloat :=
  GFloat.add (s.score (leftAt token i)) (s.score (rightAt token i))

/-- Whether the two-piece branch fires at position i: the position is
not skipped and both shouldSplitLeft and shouldSplitRight hold. -/
def bothSplitAt (s : Samurai) (token : String) (baseScore : GFloat) (i : ℕ) : Bool :=
  !skippedAt s token i && shouldSplitLeftAt s token baseScore i
    && shouldSplitRightAt s token baseScore i

/-- The loop of the specification reading of sameCaseSplit, written as
explicit recursion over the list of cut positions, deciding each
position with the named predicates above. -/
def posLoop (s : Samurai) (recur : String → GFloat → Option (List String))
    (token : String) (baseScore : GFloat) :
    List ℕ → GFloat → List String → Option (GFloat × List String)
  | [], maxScore, splitToken => some (maxScore, splitToken)
  | i :: rest, maxScore, splitToken =>
    if bothSplitAt s token baseScore i then
      if GFloat.lt maxScore (pairScoreAt s token i) then
        posLoop s recur token baseScore rest (pairScoreAt s token i)
          [leftAt token i, rightAt token i]
      else posLoop s recur token baseScore rest maxScore splitToken
    else if !skippedAt s token i && shouldSplitLeftAt s token baseScore i then
      match recur (rightAt token i) baseScore with
      | none => none
      | some temp =>
        if 1 < temp.length then
          posLoop s recur token baseScore rest maxScore (leftAt token i :: temp)
        else posLoop s recur token baseScore rest maxScore splitToken
    else posLoop s recur token baseScore rest maxScore splitToken

/-- The specification reading of sameCaseSplit after correction of the
cut-position range: the considered positions are exactly 0..n-1, each
decided by the named cut predicates. -/
def sameCaseSplitPosF (s : Samurai) : ℕ → String → GFloat → Option (List String)
  | 0, _, _ => none
  | fuel + 1, token, baseScore =>
    (posLoop s (fun t b => sameCaseSplitPosF s fuel t b) token baseScore
      (List.range' 0 token.data.length) (GFloat.fin (Frac.ofInt (-1))) [token]).map Prod.snd

/-- The claim reading of sameCaseSplit: identical to the source loop
except that the considered cut positions are exactly the interior
positions 1..n-1, so no empty left segment is ever considered. -/
def sameCaseSplitInteriorF (s : Samurai) : ℕ → String → GFloat → Option (List String)
  | 0, _, _ => none
  | fuel + 1, token, baseScore =>
    ((List.range' 1 (token.data.length - 1)).foldl
      (scsStep s (fun t b => sameCaseSplitInteriorF s fuel t b) token baseScore)
      (some (GFloat.fin (Frac.ofInt (-1)), [token]))).map Prod.snd

/-- Divergence of the same-case recursion: no amount of fuel produces a
result.  This is the fuel-model rendering of a non-terminating run of
the Go recursion. -/
def SCSDiverges (s : Samurai) (token : String) (baseScore : GFloat) : Prop :=
  ∀ fuel, sameCaseSplitF s fuel token baseScore = none

/-- A candidate dictionary expansion of a softword, with its cohesion
value (part_001 tests: expansion has a word and a float cohesion). -/
structure expansion where
  word : String
  cohesion : Frac
deriving DecidableEq

/-- A softword: one segment of a candidate split together with its
candidate expansions (part_001 tests). -/
structure softword where
  word : String
  expansions : List expansion
deriving DecidableEq

/-- One full candidate decomposition of a hardword: the marked split
string and the resulting softwords (part_001 tests). -/
structure potentialSplit where
  split : String
  softwords : List softword
deriving DecidableEq

/-- Modelled from the spec and part_001 tests: newPotentialSplit is not
under src/.  It builds the potentialSplit of a marked hardword: the
split string itself, and one softword per separator-delimited segment,
each with an empty expansion list; the empty hardword yields no
softwords. -/
def newPotentialSplit (hardword : String) : potentialSplit :=
  ⟨hardword, (hardwordsAux hardword.data []).map (fun seg => ⟨String.mk seg, []⟩)⟩

/-- Insert an underscore before each character whose index is a chosen
gap position (gap i sits before character i). -/
def markSplitAux (cuts : List ℕ) : ℕ → List Char → List Char
  | _, [] => []
  | i, c :: rest => (if i ∈ cuts then ['_', c] else [c]) ++ markSplitAux cuts (i + 1) rest

/-- The split string of a token with underscores inserted at the chosen
gap positions. -/
def markSplit (token : String) (cuts : List ℕ) : String :=
  String.mk (markSplitAux cuts 0 token.data)

/-- Modelled from the spec: generatePotentialSplits is not under src/
(only its tests are).  Section 4.5 of the spec: enumerate every subset
of the n-1 gap positions of size 0, 1 or 2; each subset produces one
potentialSplit whose split string has a separator at the chosen gaps. -/
def generatePotentialSplits (token : String) : List potentialSplit :=
  let gaps := List.range' 1 (token.data.length - 1)
  (List.sublistsLen 0 gaps ++ List.sublistsLen 1 gaps ++ List.sublistsLen 2 gaps).map
    (fun cuts => newPotentialSplit (markSplit token cuts))

/-- Modelled from the spec and part_001 tests: the highest cohesion of
a softword is the maximal cohesion over its expansions, zero when the
expansion list is empty; the first maximal expansion wins ties. -/
def softword.highestCohesion (s : softword) : Frac :=
  match s.expansions with
  | [] => Frac.ofInt 0
  | e :: es => es.foldl (fun m x => if Frac.blt m x.cohesion then x.cohesion else m) e.cohesion

/-- Modelled from the spec and part_001 tests: the best expansion of a
softword is the word of the expansion with maximal cohesion, the first
such in list order; a softword without expansions stands for itself. -/
def softword.bestExpansion (s : softword) : String :=
  match s.expansions with
  | [] => s.word
  | e :: es => (es.foldl (fun b x => if Frac.blt b.cohesion x.cohesion then x else b) e).word

/-- Modelled from the spec and part_001 tests: the highest cohesion of
a potentialSplit is the sum of the highest cohesions of its softwords,
zero for a split without softwords. -/
def potentialSplit.highestCohesion (p : potentialSplit) : Frac :=
  p.softwords.foldl (fun acc sw => acc.add sw.highestCohesion) (Frac.ofInt 0)

/-- Modelled from the spec and part_001 tests: the best expansion of a
potentialSplit joins the best expansions of its softwords with the
separator, in order; the empty string for a split without softwords. -/
def potentialSplit.bestExpansion (p : potentialSplit) : String :=
  String.intercalate "_" (p.softwords.map softword.bestExpansion)

/-- The zero value of potentialSplit: empty split string, no
softwords. -/
def emptyPotentialSplit : potentialSplit := ⟨"", []⟩

/-- One comparison step of findBestSplit: replace the best candidate so
far only when the challenger has strictly higher cohesion, so the first
encountered candidate wins ties. -/
def fbStep (best x : potentialSplit) : potentialSplit :=
  if Frac.blt best.highestCohesion x.highestCohesion then x else best

/-- Modelled from the spec and part_001 tests: findBestSplit is not
under src/ (only its tests are).  Section 4.4 of the spec: the
candidate with maximal highestCohesion, the first encountered winning
ties; the zero value for an empty candidate list. -/
def findBestSplit : List potentialSplit → potentialSplit
  | [] => emptyPotentialSplit
  | c :: cs => cs.foldl fbStep c

/-- Split a character list at a separator character, keeping empty
segments, as strings.Split does; acc accumulates in reverse. -/
def splitKeepEmptyAux (sep : Char) : List Char → List Char → List (List Char)
  | [], acc => [acc.reverse]
  | c :: rest, acc =>
    if c = sep then acc.reverse :: splitKeepEmptyAux sep rest []
    else splitKeepEmptyAux sep rest (c :: acc)

/-- The GenTest splitter context: part_001 tests show a field `list`
holding the dictionary as one space-separated string. -/
structure GenTest where
  list : String

/-- The dictionary entries of a GenTest: the space-separated words of
its list field. -/
def GenTest.dictWords (g : GenTest) : List String :=
  (splitKeepEmptyAux ' ' g.list.data []).map String.mk

/-- Order-preserving subsequence test on character lists: every
character of the first list occurs in the second, in order, not
necessarily contiguously. -/
def isSubseqChars : List Char → List Char → Bool
  | [], _ => true
  | _ :: _, [] => false
  | a :: as, b :: bs => if a = b then isSubseqChars as bs else isSubseqChars (a :: as) bs

/-- Anchored subsequence test: the first character of the word must be
the first character of the entry, and the remaining characters must
occur in the remainder of the entry in order.  This is the semantics
the part_001 test mandates: the input len yields lender and length but
not riflemen, although len is a plain subsequence of riflemen. -/
def isAnchoredSubseq : List Char → List Char → Bool
  | [], _ => true
  | _ :: _, [] => false
  | a :: as, b :: bs => a = b && isSubseqChars as bs

/-- Modelled from the spec: findExpansions is not under src/ (only its
tests are).  Section 4.5 of the spec describes the filter as an
order-preserving subsequence test with an empty result for an empty or
whitespace-only input; the repository test in part_001 (the only
authority under src/) refutes the plain-subsequence reading at the
input len and mandates the anchored form, which this model follows. -/
def GenTest.findExpansions (g : GenTest) (input : String) : List String :=
  if input.data.all (fun c => c.isWhitespace) then []
  else g.dictWords.filter (fun w => isAnchoredSubseq input.data w.data)

/-- The claim reading of findExpansions, word for word from the spec:
every dictionary entry of which the input word is a plain
order-preserving subsequence. -/
def findExpansionsSubseq (g : GenTest) (input : String) : List String :=
  if input.data.all (fun c => c.isWhitespace) then []
  else g.dictWords.filter (fun w => isSubseqChars input.data w.data)

/-- ASCII lowercase folding of a string, the identifier-range behavior
of strings.ToLower. -/
def toLowerStr (s : String) : String := String.mk (s.data.map Char.toLower)

/-- The Basic expander context (part_000, struct Basic): the Go maps
are modelled by their membership functions; a string-valued map yields
the empty string on missing keys, exactly the Go zero-value read. -/
structure Basic where
  srcWords : String → Bool
  srcPhrases : String → String
  stopList : String → Bool
  dicctionary : String → Bool

/-- strings.Split on a single-character separator, keeping empty
segments. -/
def splitOnCharStr (sep : Char) (s : String) : List String :=
  (splitKeepEmptyAux sep s.data []).map String.mk

/-- Expand (part_000 lines 24-48): lowercase the token; a stoplist
member expands to itself; otherwise a token with a known phrase expands
to the hyphen-separated parts of the phrase; otherwise a known single
word expands to itself; otherwise there is no result (the dictionary
branch of the source is commented out).  The second component is the Go
error value, nil at every return site. -/
def Basic.Expand (b : Basic) (token : String) : Option (List String) × Option String :=
  let tok := toLowerStr token
  if b.stopList tok then (some [tok], none)
  else if b.srcPhrases tok ≠ "" then (some (splitOnCharStr '-' (b.srcPhrases tok)), none)
  else if b.srcWords tok then (some [tok], none)
  else (none, none)

/-- A Samurai instance with empty tables: every word scores zero, and
the abstract square root is instantiated only at zero, where the true
square root is zero.  Local total 100, so log10 is exactly 2. -/
def samuraiEmptyTables : Samurai where
  localFreqTable := ⟨[], 100⟩
  globalFreqTable := ⟨[], 0⟩
  prefixes := []
  suffixes := []
  msqrt := fun x =>
    match x with
    | GFloat.fin q => if q.num = 0 then GFloat.fin (Frac.ofInt 0) else GFloat.nan
    | _ => GFloat.nan
  mlog10 := fun n => if n = 100 then GFloat.fin (Frac.ofInt 2) else GFloat.nan

/-- A Samurai instance whose local table gives the empty string count
100 (total 100, log10 exactly 2): the empty left part at cut position 0
then satisfies shouldSplitLeft while the whole token does not satisfy
shouldSplitRight, so the branch taken at position 0 recurses on the
unchanged token.  The abstract square root is instantiated only at 100
and 0, where the true square roots are 10 and 0. -/
def samuraiEmptyKey : Samurai where
  localFreqTable := ⟨[("", 100)], 100⟩
  globalFreqTable := ⟨[], 0⟩
  prefixes := []
  suffixes := []
  msqrt := fun x =>
    match x with
    | GFloat.fin q =>
      if q.num = 100 * q.den then GFloat.fin (Frac.ofInt 10)
      else if q.num = 0 then GFloat.fin (Frac.ofInt 0)
      else GFloat.nan
    | _ => GFloat.nan
  mlog10 := fun n => if n = 100 then GFloat.fin (Frac.ofInt 2) else GFloat.nan

/-- A Samurai instance for the cut-position-zero observation: the empty
string has local count 100 and the token ab has global count 1 with
local total 10000 (log10 exactly 4), so score(empty) = 100 and
score(ab) = 1/4.  The abstract square root is instantiated only at 100,
1/4 and 0, whose true square roots 10, 1/2 and 0 are rational. -/
def samuraiFracScores : Samurai where
  localFreqTable := ⟨[("", 100)], 10000⟩
  globalFreqTable := ⟨[("ab", 1)], 0⟩
  prefixes := []
  suffixes := []
  msqrt := fun x =>
    match x with
    | GFloat.fin q =>
      if q.num = 100 * q.den then GFloat.fin (Frac.ofInt 10)
      else if q.num * 4 = q.den then GFloat.fin ⟨1, 2, by decide⟩
      else if q.num = 0 then GFloat.fin (Frac.ofInt 0)
      else GFloat.nan
    | _ => GFloat.nan
  mlog10 := fun n => if n = 10000 then GFloat.fin (Frac.ofInt 4) else GFloat.nan

/-- A Samurai instance for the overwrite observation on the token abcd:
the segments a, bcd, ab, c and d all have local count 16 (square root
exactly 4) and every other segment scores zero; local total 10, so
log10 is exactly 1. -/
def samuraiOverwrite : Samurai where
  localFreqTable := ⟨[("a", 16), ("bcd", 16), ("ab", 16), ("c", 16), ("d", 16)], 10⟩
  globalFreqTable := ⟨[], 0⟩
  prefixes := []
  suffixes := []
  msqrt := fun x =>
    match x with
    | GFloat.fin q =>
      if q.num = 16 * q.den then GFloat.fin (Frac.ofInt 4)
      else if q.num = 0 then GFloat.fin (Frac.ofInt 0)
      else GFloat.nan
    | _ => GFloat.nan
  mlog10 := fun n => if n = 10 then GFloat.fin (Frac.ofInt 1) else GFloat.nan

/-- A Samurai instance with local total 1: log10(1) is exactly 0, the
divisor of the score quotient.  The word n has global count 1; the
square root model is never consulted by score. -/
def samuraiTotalOne : Samurai where
  localFreqTable := ⟨[], 1⟩
  globalFreqTable := ⟨[("n", 1)], 0⟩
  prefixes := []
  suffixes := []
  msqrt := fun _ => GFloat.nan
  mlog10 := fun n => if n = 1 then GFloat.fin (Frac.ofInt 0) else GFloat.nan

/-- The dictionary of the findExpansions test in part_001. -/
def genTestFixture : GenTest :=
  ⟨"car string steer set riflemen lender bar length kamikaze"⟩

/-- A Basic instance on which the token foo is simultaneously a known
word and the key of a known phrase. -/
def basicOverlap : Basic where
  srcWords := fun t => t == "foo"
  srcPhrases := fun t => if t == "foo" then "foo-bar" else ""
  stopList := fun _ => false
  dicctionary := fun _ => false

/-- A Basic instance with disjoint lists, for witnessing each branch:
dog is a stop word, cat maps to the phrase cat-fish, egg is a known
word. -/
def basicBranches : Basic where
  srcWords := fun t => t == "egg"
  srcPhrases := fun t => if t == "cat" then "cat-fish" else ""
  stopList := fun t => t == "dog"
  dicctionary := fun _ => false

/-- The highest-cohesion candidate of the findBestSplit test in
part_001: softwords str and len with expansions string (2.3432) and
length (2.0011). -/
def bestSplitFixture : potentialSplit :=
  ⟨"str_len",
   [⟨"str", [⟨"string", ⟨23432, 10000, by decide⟩⟩]⟩,
    ⟨"len", [⟨"length", ⟨20011, 10000, by decide⟩⟩]⟩]⟩

/-- The middle candidate of the findBestSplit test in part_001:
softwords st and rlen with expansions string (1.9432) and riflemen
(0.9011). -/
def notSoBadSplitFixture : potentialSplit :=
  ⟨"st_rlen",
   [⟨"st", [⟨"string", ⟨19432, 10000, by decide⟩⟩]⟩,
    ⟨"rlen", [⟨"riflemen", ⟨9011, 10000, by decide⟩⟩]⟩]⟩

/-- The expansion-free candidate of the findBestSplit test in
part_001. -/
def badSplitFixture : potentialSplit :=
  ⟨"s_trlen", [⟨"s", []⟩, ⟨"trlen", []⟩]⟩

/-! ### Bridge lemmas: Frac agrees with rational arithmetic -/

theorem Frac.den_cast_pos (a : Frac) : (0 : ℚ) < (a.den : ℚ) := by
  exact_mod_cast a.dpos

theorem Frac.den_cast_ne (a : Frac) : (a.den : ℚ) ≠ 0 :=
  ne_of_gt a.den_cast_pos

theorem Frac.toRat_ofInt (n : ℤ) : (Frac.ofInt n).toRat = (n : ℚ) := by
  simp [Frac.ofInt, Frac.toRat]

theorem Frac.toRat_add (a b : Frac) : (a.add b).toRat = a.toRat + b.toRat := by
  unfold Frac.add Frac.toRat
  rw [div_add_div _ _ a.den_cast_ne b.den_cast_ne]
  push_cast
  ring_nf

theorem Frac.toRat_div (a b : Frac) (h : b.num ≠ 0) :
    (a.div b).toRat = a.toRat / b.toRat := by
  have hb : ((b.num : ℚ)) ≠ 0 := by exact_mod_cast h
  have had : ((a.den : ℚ)) ≠ 0 := a.den_cast_ne
  have hbd : ((b.den : ℚ)) ≠ 0 := b.den_cast_ne
  unfold Frac.div Frac.toRat
  rcases lt_trichotomy 0 b.num with hpos | hzero | hneg
  · rw [dif_pos hpos]
    dsimp only
    push_cast
    field_simp
  · exact absurd hzero.symm h
  · rw [dif_neg (by omega), dif_pos hneg]
    dsimp only
    push_cast
    field_simp

theorem Frac.blt_iff (a b : Frac) : a.blt b = true ↔ a.toRat < b.toRat := by
  unfold Frac.blt Frac.toRat
  rw [div_lt_div_iff₀ a.den_cast_pos b.den_cast_pos]
  rw [decide_eq_true_eq]
  exact_mod_cast Iff.rfl

theorem Frac.ble_iff (a b : Frac) : a.ble b = true ↔ a.toRat ≤ b.toRat := by
  unfold Frac.ble Frac.toRat
  rw [div_le_div_iff₀ a.den_cast_pos b.den_cast_pos]
  rw [decide_eq_true_eq]
  exact_mod_cast Iff.rfl

/-! ### String and concatenation basics -/

theorem strTake_append_strDrop (t : String) (i : ℕ) : strTake t i ++ strDrop t i = t := by
  apply String.ext
  rw [String.data_append]
  show (t.data.take i) ++ (t.data.drop i) = t.data
  exact List.take_append_drop i t.data

theorem concatAll_nil : concatAll [] = "" := rfl

theorem concatAll_cons (x : String) (xs : List String) :
    concatAll (x :: xs) = x ++ concatAll xs := rfl

theorem str_append_empty (s : String) : s ++ "" = s := by
  apply String.ext
  rw [String.data_append]
  exact List.append_nil s.data

theorem concatAll_pair (a b : String) : concatAll [a, b] = a ++ b := by
  rw [concatAll_cons, concatAll_cons, concatAll_nil, str_append_empty]

/-! ### The same-case loop: step characterization and invariants -/

theorem scsStep_none (s : Samurai) (recur : String → GFloat → Option (List String))
    (token : String) (baseScore : GFloat) (i : ℕ) :
    scsStep s recur token baseScore none i = none := rfl

theorem foldl_scsStep_none (s : Samurai) (recur : String → GFloat → Option (List String))
    (token : String) (baseScore : GFloat) (is : List ℕ) :
    is.foldl (scsStep s recur token baseScore) none = none := by
  induction is with
  | nil => rfl
  | cons i rest ih => rw [List.foldl_cons, scsStep_none]; exact ih

theorem scsStep_char (s : Samurai) (recur : String → GFloat → Option (List String))
    (token : String) (baseScore : GFloat) (ms : GFloat) (sp : List String) (i : ℕ) :
    scsStep s recur token baseScore (some (ms, sp)) i =
      (if bothSplitAt s token baseScore i then
        (if GFloat.lt ms (pairScoreAt s token i) then
          some (pairScoreAt s token i, [leftAt token i, rightAt token i])
         else some (ms, sp))
       else if !skippedAt s token i && shouldSplitLeftAt s token baseScore i then
         (match recur (rightAt token i) baseScore with
          | none => none
          | some temp =>
            if 1 < temp.length then some (ms, leftAt token i :: temp)
            else some (ms, sp))
       else some (ms, sp)) := rfl

theorem concatAll_singleton (a : String) : concatAll [a] = a := by
  rw [concatAll_cons, concatAll_nil, str_append_empty]

theorem concatAll_left_right (token : String) (i : ℕ) :
    concatAll [leftAt token i, rightAt token i] = token := by
  rw [concatAll_pair]; exact strTake_append_strDrop token i

theorem concatAll_left_cons (token : String) (i : ℕ) (temp : List String)
    (h : concatAll temp = rightAt token i) :
    concatAll (leftAt token i :: temp) = token := by
  rw [concatAll_cons, h]; exact strTake_append_strDrop token i

theorem scsStep_foldl_inv (s : Samurai) (recur : String → GFloat → Option (List String))
    (token : String) (baseScore : GFloat)
    (hr : ∀ t b l, recur t b = some l → l ≠ [] ∧ concatAll l = t) :
    ∀ (is : List ℕ) (ms : GFloat) (sp : List String),
      sp ≠ [] → concatAll sp = token →
      ∀ p, is.foldl (scsStep s recur token baseScore) (some (ms, sp)) = some p →
        p.2 ≠ [] ∧ concatAll p.2 = token := by
  intro is
  induction is with
  | nil =>
    intro ms sp hne hcat p hp
    rw [List.foldl_nil] at hp
    cases hp
    exact ⟨hne, hcat⟩
  | cons i rest ih =>
    intro ms sp hne hcat p hp
    rw [List.foldl_cons, scsStep_char] at hp
    split at hp
    · split at hp
      · exact ih _ _ (by simp) (concatAll_left_right token i) p hp
      · exact ih _ _ hne hcat p hp
    · split at hp
      · split at hp
        · rw [foldl_scsStep_none] at hp
          cases hp
        · rename_i temp heq
          split at hp
          · exact ih _ _ (by simp) (concatAll_left_cons token i temp (hr _ _ _ heq).2) p hp
          · exact ih _ _ hne hcat p hp
      · exact ih _ _ hne hcat p hp

theorem sameCaseSplitF_some (s : Samurai) :
    ∀ (fuel : ℕ) (token : String) (baseScore : GFloat) (l : List String),
      sameCaseSplitF s fuel token baseScore = some l → l ≠ [] ∧ concatAll l = token := by
  intro fuel
  induction fuel with
  | zero =>
    intro token b l h
    exact Option.noConfusion h
  | succ fuel ih =>
    intro token b l h
    unfold sameCaseSplitF at h
    rcases hfold : (List.range token.data.length).foldl
        (scsStep s (fun t b => sameCaseSplitF s fuel t b) token b)
        (some (GFloat.fin (Frac.ofInt (-1)), [token])) with _ | p
    · rw [hfold] at h
      cases h
    · rw [hfold] at h
      rw [Option.map_some'] at h
      cases h
      exact scsStep_foldl_inv s _ token b ih (List.range token.data.length)
        _ [token] (by simp) (concatAll_singleton token) p hfold

/-! ### Hardword splitting and marker insertion -/

theorem hardwordsAux_flatten (l : List Char) :
    ∀ acc, (hardwordsAux l acc).flatten = acc.reverse ++ l.filter (fun c => c ≠ '_') := by
  induction l with
  | nil =>
    intro acc
    cases acc with
    | nil => simp [hardwordsAux]
    | cons a as => simp [hardwordsAux]
  | cons c rest ih =>
    intro acc
    unfold hardwordsAux
    by_cases hc : c = '_'
    · subst hc
      cases acc with
      | nil =>
        rw [if_pos rfl, if_pos (show ([] : List Char).isEmpty = true from rfl), ih []]
        simp [List.filter_cons]
      | cons a as =>
        rw [if_pos rfl, if_neg (by simp), List.flatten_cons, ih []]
        simp [List.filter_cons]
    · rw [if_neg hc, ih (c :: acc)]
      simp [List.filter_cons, hc, List.reverse_cons, List.append_assoc]

theorem concatAll_map_mk (ls : List (List Char)) :
    (concatAll (ls.map String.mk)).data = ls.flatten := by
  induction ls with
  | nil => rfl
  | cons h t ih =>
    rw [List.map_cons, concatAll_cons, String.data_append, ih, List.flatten_cons]

theorem concatAll_splitOnMarkers (t : String) :
    (concatAll (splitOnMarkers t)).data = t.data.filter (fun c => c ≠ '_') := by
  unfold splitOnMarkers
  rw [concatAll_map_mk, hardwordsAux_flatten]
  rfl

theorem insertMarkers_filter (p : Char → Char → Bool) (l : List Char) :
    (insertMarkers p l).filter (fun c => c ≠ '_') = l.filter (fun c => c ≠ '_') := by
  induction l with
  | nil => rfl
  | cons c rest ih =>
    cases rest with
    | nil => rfl
    | cons c2 r2 =>
      rw [insertMarkers]
      by_cases hp : p c c2
      · rw [if_pos hp, List.filter_append, ih]
        by_cases hcu : c = '_' <;> simp [List.filter_cons, hcu]
      · rw [if_neg hp, List.filter_append, ih]
        by_cases hcu : c = '_' <;> simp [List.filter_cons, hcu]

theorem marked_filter (t : String) :
    (addMarkersOnLowerToUpperCase (addMarkersOnDigits t)).data.filter (fun c => c ≠ '_')
      = t.data.filter (fun c => c ≠ '_') := by
  unfold addMarkersOnLowerToUpperCase addMarkersOnDigits
  show ((insertMarkers lowerUpperBoundary (insertMarkers digitBoundary t.data)).filter
    (fun c => c ≠ '_')) = t.data.filter (fun c => c ≠ '_')
  rw [insertMarkers_filter, insertMarkers_filter]

/-! ### Divergence of the same-case recursion at cut position 0 -/

theorem samuraiEmptyKey_diverges_aux (r : String → GFloat → Option (List String))
    (hr : r "ab" (GFloat.fin (Frac.ofInt 0)) = none) :
    ((List.range ("ab".data.length)).foldl
      (scsStep samuraiEmptyKey r "ab" (GFloat.fin (Frac.ofInt 0)))
      (some (GFloat.fin (Frac.ofInt (-1)), ["ab"]))).map Prod.snd = none := by
  rw [show (List.range ("ab".data.length)) = [0, 1] from rfl]
  rw [List.foldl_cons]
  rw [show scsStep samuraiEmptyKey r "ab" (GFloat.fin (Frac.ofInt 0))
      (some (GFloat.fin (Frac.ofInt (-1)), ["ab"])) 0
      = (match r "ab" (GFloat.fin (Frac.ofInt 0)) with
         | none => none
         | some temp =>
           if 1 < temp.length then some (GFloat.fin (Frac.ofInt (-1)), strTake "ab" 0 :: temp)
           else some (GFloat.fin (Frac.ofInt (-1)), ["ab"])) from rfl]
  rw [hr]
  rfl

theorem samuraiEmptyKey_diverges :
    SCSDiverges samuraiEmptyKey "ab" (GFloat.fin (Frac.ofInt 0)) := by
  intro fuel
  induction fuel with
  | zero => rfl
  | succ fuel ih =>
    exact samuraiEmptyKey_diverges_aux (fun t b => sameCaseSplitF samuraiEmptyKey fuel t b) ih

/-! ### Split agrees with its hardword-by-hardword description -/

theorem foldl_bind_none (s : Samurai) (ws : List String) :
    ws.foldl (fun a w =>
      a.bind fun xs => (s.sameCaseSplit w (s.score w)).map (fun ys => xs ++ ys)) none = none := by
  induction ws with
  | nil => rfl
  | cons w ws ih =>
    rw [List.foldl_cons]
    exact ih

theorem split_foldl_eq (s : Samurai) :
    ∀ (ws : List String) (acc : List String),
      ws.foldl (fun a w =>
        a.bind fun xs => (s.sameCaseSplit w (s.score w)).map (fun ys => xs ++ ys)) (some acc)
        = (splitAllHardwords s ws).map (fun ys => acc ++ ys) := by
  intro ws
  induction ws with
  | nil =>
    intro acc
    simp [splitAllHardwords]
  | cons w ws ih =>
    intro acc
    rw [List.foldl_cons]
    rcases hw : s.sameCaseSplit w (s.score w) with _ | l
    · rw [show ((some acc).bind fun xs =>
          Option.map (fun ys => xs ++ ys) (none : Option (List String))) = none from rfl]
      rw [foldl_bind_none]
      rw [show splitAllHardwords s (w :: ws) = none from by
        unfold splitAllHardwords; rw [hw]]
      rfl
    · rw [show ((some acc).bind fun xs =>
          Option.map (fun ys => xs ++ ys) (some l)) = some (acc ++ l) from rfl]
      rw [ih]
      rcases hws : splitAllHardwords s ws with _ | rest
      · rw [show splitAllHardwords s (w :: ws) = none from by
          unfold splitAllHardwords; rw [hw, hws]]
        rfl
      · rw [show splitAllHardwords s (w :: ws) = some (l ++ rest) from by
          unfold splitAllHardwords; rw [hw, hws]]
        simp [List.append_assoc]

theorem str_empty_append (s : String) : "" ++ s = s := by
  apply String.ext
  rw [String.data_append]
  rfl

theorem str_append_assoc (a b c : String) : a ++ b ++ c = a ++ (b ++ c) := by
  apply String.ext
  simp [String.data_append, List.append_assoc]

theorem concatAll_append (a b : List String) :
    concatAll (a ++ b) = concatAll a ++ concatAll b := by
  induction a with
  | nil => rw [List.nil_append, concatAll_nil, str_empty_append]
  | cons x xs ih => rw [List.cons_append, concatAll_cons, concatAll_cons, ih, str_append_assoc]

theorem split_eq_spec (s : Samurai) (token : String) :
    s.Split token = s.SplitSpec token := by
  unfold Samurai.Split Samurai.SplitSpec
  dsimp only
  rw [split_foldl_eq]
  rcases h : splitAllHardwords s
      (splitOnMarkers (addMarkersOnLowerToUpperCase (addMarkersOnDigits token))) with _ | out
  · rfl
  · simp

theorem splitAllHardwords_concat (s : Samurai) :
    ∀ (ws : List String) (out : List String),
      splitAllHardwords s ws = some out → concatAll out = concatAll ws := by
  intro ws
  induction ws with
  | nil =>
    intro out h
    cases h
    rfl
  | cons w ws ih =>
    intro out h
    unfold splitAllHardwords at h
    rcases hw : s.sameCaseSplit w (s.score w) with _ | l <;> rw [hw] at h
    · cases h
    · rcases hws : splitAllHardwords s ws with _ | rest <;> rw [hws] at h
      · cases h
      · cases h
        rw [concatAll_append, ih rest hws, concatAll_cons]
        have hl := sameCaseSplitF_some s (w.data.length + 1) w (s.score w) l hw
        rw [hl.2]

theorem split_some_concat (s : Samurai) (token : String) (out : List String)
    (h : s.Split token = some out) :
    concatAll out = removeUnderscores token := by
  rw [split_eq_spec] at h
  unfold Samurai.SplitSpec at h
  have h2 := splitAllHardwords_concat s _ out h
  apply String.ext
  rw [show (removeUnderscores token).data = token.data.filter (fun c => c ≠ '_') from rfl]
  rw [h2, concatAll_splitOnMarkers]
  exact marked_filter token

/-- C1 (amended): whenever the same-case recursion returns a result
(within any fuel), that result is a non-empty list of pieces whose
concatenation is exactly the input token; and whenever Split returns a
result, the concatenation of the returned strings is the original token
with its underscore separators removed.  The amendments relative to the
claim are forced by the counterexample: a token that itself contains an
underscore is reconstructed only up to its underscores, and the
same-case recursion does not always return, since the branch taken at
cut position 0 can recurse on the unchanged token. -/
theorem claim_C1 :
    (∀ (s : Samurai) (fuel : ℕ) (token : String) (baseScore : GFloat) (l : List String),
        sameCaseSplitF s fuel token baseScore = some l →
        l ≠ [] ∧ concatAll l = token) ∧
    (∀ (s : Samurai) (token : String) (out : List String),
        Samurai.Split s token = some out →
        concatAll out = removeUnderscores token) :=
  ⟨fun s fuel token b l h => sameCaseSplitF_some s fuel token b l h,
   fun s token out h => split_some_concat s token out h⟩

/-- C1 witness: on empty frequency tables the same-case split of ab is
the one-piece list [ab], non-empty and concatenating to ab, and Split
of a_b returns [a, b], concatenating to ab, the token with its
underscore removed. -/
theorem claim_C1_witness :
    (sameCaseSplitF samuraiEmptyTables 3 "ab" (GFloat.fin (Frac.ofInt 0)) = some ["ab"] ∧
      (["ab"] : List String) ≠ [] ∧ concatAll ["ab"] = "ab") ∧
    (Samurai.Split samuraiEmptyTables "a_b" = some ["a", "b"] ∧
      concatAll ["a", "b"] = removeUnderscores "a_b") := by
  refine ⟨⟨by decide, ?_, ?_⟩, ⟨by decide, ?_⟩⟩
  · exact (claim_C1.1 samuraiEmptyTables 3 "ab" (GFloat.fin (Frac.ofInt 0)) ["ab"] (by decide)).1
  · exact (claim_C1.1 samuraiEmptyTables 3 "ab" (GFloat.fin (Frac.ofInt 0)) ["ab"] (by decide)).2
  · exact claim_C1.2 samuraiEmptyTables "a_b" ["a", "b"] (by decide)

/-- C1 counterexample: the claim as stated fails twice.  On the token
a_b (with empty frequency tables) Split returns [a, b], whose
concatenation ab is not the original token a_b: the pre-existing
underscore is lost.  And with a local table giving the empty string
count 100 (total 100), sameCaseSplit of ab never returns at all: at cut
position 0 only shouldSplitLeft holds and the recursion re-enters on
the unchanged token, for every amount of fuel. -/
theorem claim_C1_counterexample :
    (Samurai.Split samuraiEmptyTables "a_b" = some ["a", "b"] ∧
      concatAll ["a", "b"] ≠ "a_b") ∧
    SCSDiverges samuraiEmptyKey "ab" (GFloat.fin (Frac.ofInt 0)) :=
  ⟨⟨by decide, by decide⟩, samuraiEmptyKey_diverges⟩

/-- C2: the value returned by Split is exactly the concatenation, over
the hardwords of the marked token in order, of sameCaseSplit applied to
each hardword with the hardword score as base score; the camel-boundary
decision, although computed inside Split into the processedToken
accumulator, does not affect the returned value. -/
theorem claim_C2 : ∀ (s : Samurai) (token : String),
    Samurai.Split s token = Samurai.SplitSpec s token :=
  fun s token => split_eq_spec s token

/-! ### The considered cut positions -/

theorem foldl_eq_posLoop (s : Samurai) (r1 r2 : String → GFloat → Option (List String))
    (hr : ∀ t b, r1 t b = r2 t b) (token : String) (baseScore : GFloat) :
    ∀ (is : List ℕ) (ms : GFloat) (sp : List String),
      is.foldl (scsStep s r1 token baseScore) (some (ms, sp))
        = posLoop s r2 token baseScore is ms sp := by
  intro is
  induction is with
  | nil => intro ms sp; rfl
  | cons i rest ih =>
    intro ms sp
    rw [List.foldl_cons, scsStep_char]
    unfold posLoop
    by_cases hb : bothSplitAt s token baseScore i = true
    · rw [if_pos hb, if_pos hb]
      by_cases hlt : GFloat.lt ms (pairScoreAt s token i) = true
      · rw [if_pos hlt, if_pos hlt, ih]
      · rw [if_neg hlt, if_neg hlt, ih]
    · rw [if_neg hb, if_neg hb]
      by_cases hl : (!skippedAt s token i && shouldSplitLeftAt s token baseScore i) = true
      · rw [if_pos hl, if_pos hl, hr (rightAt token i) baseScore]
        rcases h2 : r2 (rightAt token i) baseScore with _ | temp
        · exact foldl_scsStep_none s r1 token baseScore rest
        · dsimp only
          by_cases hlen : 1 < temp.length
          · rw [if_pos hlen, if_pos hlen, ih]
          · rw [if_neg hlen, if_neg hlen, ih]
      · rw [if_neg hl, if_neg hl, ih]

theorem sameCaseSplitF_eq_pos (s : Samurai) :
    ∀ (fuel : ℕ) (token : String) (baseScore : GFloat),
      sameCaseSplitF s fuel token baseScore = sameCaseSplitPosF s fuel token baseScore := by
  intro fuel
  induction fuel with
  | zero => intro token b; rfl
  | succ fuel ih =>
    intro token b
    unfold sameCaseSplitF sameCaseSplitPosF
    rw [show List.range' 0 token.data.length = List.range token.data.length from
      (List.range_eq_range' token.data.length).symm]
    rw [foldl_eq_posLoop s _ _ (fun t b => ih t b) token b]

/-- C3 (amended): the source loop of sameCaseSplit coincides, for every
context, fuel, token and base score, with the position-by-position
procedure that considers exactly the cut positions 0..len(token)-1 —
including position 0, whose left segment is empty — and at each
position i computes left = token[0:i], right = token[i:n],
shouldSplitLeft = sqrt(score(left)) > max(score(token), baseScore) and
shouldSplitRight = sqrt(score(right)) > max(score(token), baseScore).
The amendment relative to the claim is the position range: the claim
said 1..len(token)-1 with no empty left segment considered. -/
theorem claim_C3 : ∀ (s : Samurai) (fuel : ℕ) (token : String) (baseScore : GFloat),
    sameCaseSplitF s fuel token baseScore = sameCaseSplitPosF s fuel token baseScore :=
  fun s fuel token b => sameCaseSplitF_eq_pos s fuel token b

/-- C3 counterexample: with score(empty) = 100, score(ab) = 1/4 and
base score 1/4 (the instance samuraiFracScores, whose square-root model
is exact at the three consulted points 100, 1/4 and 0), the source loop
takes the two-piece branch at cut position 0 and returns the pieces
[empty, ab] — the considered position 0 has an empty left segment and
is observable in the output — while the loop restricted to the interior
positions 1..n-1, as the claim states it, returns [ab]. -/
theorem claim_C3_counterexample :
    sameCaseSplitF samuraiFracScores 3 "ab" (GFloat.fin ⟨1, 4, by decide⟩)
        = some ["", "ab"] ∧
    sameCaseSplitInteriorF samuraiFracScores 3 "ab" (GFloat.fin ⟨1, 4, by decide⟩)
        = some ["ab"] ∧
    (["", "ab"] : List String) ≠ ["ab"] :=
  ⟨by decide, by decide, by decide⟩

/-- C10: in the instance samuraiOverwrite on the token abcd with base
score 1, the two-piece branch fires exactly at cut position 1, storing
the candidate [a, bcd] (the maximal-sum two-piece split, since no other
position satisfies the two-piece condition); at the later position 2
only shouldSplitLeft holds, and the recursion on cd yields the two
pieces [c, d], so the stored candidate is replaced by [ab, c, d]
without any score comparison: the returned value is not the stored
maximal-sum two-piece split. -/
theorem claim_C10 :
    bothSplitAt samuraiOverwrite "abcd" (GFloat.fin (Frac.ofInt 1)) 1 = true ∧
    bothSplitAt samuraiOverwrite "abcd" (GFloat.fin (Frac.ofInt 1)) 0 = false ∧
    bothSplitAt samuraiOverwrite "abcd" (GFloat.fin (Frac.ofInt 1)) 2 = false ∧
    bothSplitAt samuraiOverwrite "abcd" (GFloat.fin (Frac.ofInt 1)) 3 = false ∧
    (!skippedAt samuraiOverwrite "abcd" 2 &&
      shouldSplitLeftAt samuraiOverwrite "abcd" (GFloat.fin (Frac.ofInt 1)) 2) = true ∧
    shouldSplitRightAt samuraiOverwrite "abcd" (GFloat.fin (Frac.ofInt 1)) 2 = false ∧
    leftAt "abcd" 1 = "a" ∧ rightAt "abcd" 1 = "bcd" ∧
    Samurai.sameCaseSplit samuraiOverwrite "abcd" (GFloat.fin (Frac.ofInt 1))
      = some ["ab", "c", "d"] ∧
    (["ab", "c", "d"] : List String) ≠ ["a", "bcd"] := by
  refine ⟨by decide, by decide, by decide, by decide, by decide, by decide,
    by decide, by decide, by decide, by decide⟩

/-- C4: the score function divides by log10 of the total without any
guard.  With a local total of 1 the divisor log10(1) is exactly zero,
and the quotient follows the IEEE rules: the word n (global count 1,
score 1/0) evaluates to positive infinity, while the unknown word m
(score 0 + 0/0) evaluates to NaN.  No arithmetic fault is raised, but
the result is an infinity or NaN depending on the word, not the
defined, documented constant the specification requires. -/
theorem claim_C4 :
    samuraiTotalOne.localFreqTable.TotalOccurrences = 1 ∧
    samuraiTotalOne.mlog10 1 = GFloat.fin (Frac.ofInt 0) ∧
    Samurai.score samuraiTotalOne "n" = GFloat.inf true ∧
    Samurai.score samuraiTotalOne "m" = GFloat.nan ∧
    GFloat.inf true ≠ GFloat.nan := by
  refine ⟨by decide, by decide, by decide, by decide, by decide⟩

theorem lookup_eq_none_of_not_mem {t : List (String × ℕ)} {w : String}
    (h : w ∉ t.map Prod.fst) : t.lookup w = none := by
  induction t with
  | nil => rfl
  | cons kv rest ih =>
    obtain ⟨k, v⟩ := kv
    rw [List.map_cons, List.mem_cons] at h
    push_neg at h
    have hbeq : (w == k) = false := beq_eq_false_iff_ne.mpr h.1
    simp [List.lookup, hbeq, ih h.2]

/-- C5: for every context and word, score(word) is exactly the local
frequency of the word plus its global frequency divided by log10 of the
local total occurrence count (the first conjunct unfolds the score
definition into the three frequency-table reads and the two float
operations); and a frequency lookup of a word absent from a table is
zero, never an error. -/
theorem claim_C5 :
    (∀ (s : Samurai) (word : String),
      Samurai.score s word =
        GFloat.add (GFloat.fin (Frac.ofInt (s.localFreqTable.Frequency word)))
          (GFloat.div (GFloat.fin (Frac.ofInt (s.globalFreqTable.Frequency word)))
            (s.mlog10 s.localFreqTable.TotalOccurrences))) ∧
    (∀ (t : FrequencyTable) (word : String),
      word ∉ t.counts.map Prod.fst → t.Frequency word = 0) := by
  constructor
  · intro s word
    rfl
  · intro t word h
    unfold FrequencyTable.Frequency
    rw [lookup_eq_none_of_not_mem h]
    rfl

/-- C5 witness: the word b is absent from a table holding only the
word a, and its frequency evaluates to zero. -/
theorem claim_C5_witness :
    ("b" ∉ ([("a", 3)] : List (String × ℕ)).map Prod.fst) ∧
    FrequencyTable.Frequency ⟨[("a", 3)], 10⟩ "b" = 0 ∧
    Samurai.score samuraiEmptyTables "b" =
      GFloat.add (GFloat.fin (Frac.ofInt (samuraiEmptyTables.localFreqTable.Frequency "b")))
        (GFloat.div (GFloat.fin (Frac.ofInt (samuraiEmptyTables.globalFreqTable.Frequency "b")))
          (samuraiEmptyTables.mlog10 samuraiEmptyTables.localFreqTable.TotalOccurrences)) :=
  ⟨by decide, claim_C5.2 ⟨[("a", 3)], 10⟩ "b" (by decide),
   claim_C5.1 samuraiEmptyTables "b"⟩

/-! ### Candidate generation counts -/

theorem markSplitAux_nil : ∀ (l : List Char) (i : ℕ), markSplitAux [] i l = l := by
  intro l
  induction l with
  | nil => intro i; rfl
  | cons c rest ih =>
    intro i
    unfold markSplitAux
    rw [if_neg (List.not_mem_nil i), List.singleton_append, ih]

theorem markSplit_nil (token : String) : markSplit token [] = token := by
  apply String.ext
  show markSplitAux [] 0 token.data = token.data
  exact markSplitAux_nil token.data 0

/-- C6: on a token of length n, the number of generated candidate
splits is 1 + (n-1) + C(n-1, 2) — one subset of the gap positions of
each size 0, 1 and 2 — which equals 2^(n-1) exactly when n-1 is at most
2; and the zero-cut candidate, the whole token unsplit, is always among
the candidates. -/
theorem claim_C6 : ∀ token : String,
    (generatePotentialSplits token).length =
      (if token.data.length - 1 ≤ 2 then 2 ^ (token.data.length - 1)
       else 1 + (token.data.length - 1) + Nat.choose (token.data.length - 1) 2) ∧
    newPotentialSplit token ∈ generatePotentialSplits token := by
  intro token
  constructor
  · unfold generatePotentialSplits
    rw [List.length_map, List.length_append, List.length_append,
      List.length_sublistsLen, List.length_sublistsLen, List.length_sublistsLen,
      List.length_range']
    by_cases hm : token.data.length - 1 ≤ 2
    · rw [if_pos hm]
      set m := token.data.length - 1 with hmdef
      interval_cases m <;> decide
    · rw [if_neg hm]
      rw [Nat.choose_zero_right, Nat.choose_one_right]
  · unfold generatePotentialSplits
    have hmem : ([] : List ℕ) ∈
        List.sublistsLen 0 (List.range' 1 (token.data.length - 1)) ++
        List.sublistsLen 1 (List.range' 1 (token.data.length - 1)) ++
        List.sublistsLen 2 (List.range' 1 (token.data.length - 1)) := by
      rw [List.sublistsLen_zero]
      simp
    have h2 : newPotentialSplit (markSplit token []) ∈
        List.map (fun cuts => newPotentialSplit (markSplit token cuts))
          (List.sublistsLen 0 (List.range' 1 (token.data.length - 1)) ++
            List.sublistsLen 1 (List.range' 1 (token.data.length - 1)) ++
            List.sublistsLen 2 (List.range' 1 (token.data.length - 1))) :=
      List.mem_map_of_mem (fun cuts => newPotentialSplit (markSplit token cuts)) hmem
    rw [markSplit_nil] at h2
    exact h2

/-! ### Dictionary subsequence search -/

theorem isSubseqChars_iff : ∀ (b a : List Char),
    isSubseqChars a b = true ↔ List.Sublist a b := by
  intro b
  induction b with
  | nil =>
    intro a
    cases a with
    | nil => simp [isSubseqChars]
    | cons y as => simp [isSubseqChars]
  | cons x bs ih =>
    intro a
    cases a with
    | nil => simp [isSubseqChars]
    | cons y as =>
      unfold isSubseqChars
      by_cases h : y = x
      · subst h
        rw [if_pos rfl]
        constructor
        · intro h1
          exact List.cons_sublist_cons.mpr ((ih as).mp h1)
        · intro h2
          exact (ih as).mpr (List.cons_sublist_cons.mp h2)
      · rw [if_neg h]
        constructor
        · intro h1
          exact ((ih (y :: as)).mp h1).cons x
        · intro h2
          cases h2 with
          | cons _ h3 => exact (ih (y :: as)).mpr h3
          | cons₂ _ h3 => exact absurd rfl h

/-- C7 (amended): findExpansions returns, for a non-whitespace input
word, exactly the dictionary entries that begin with the first
character of the word and of which the word is an order-preserving
(not necessarily contiguous) subsequence, compared by exact characters
(the anchored boolean test is characterized through List.Sublist in the
last conjunct); for an empty or whitespace-only input word the result
is empty; and a word matching no entry yields the empty filtered list,
never an error.  The amendment relative to the claim is the anchoring
of the first character, forced by the repository test at input len. -/
theorem claim_C7 : ∀ (g : GenTest) (input : String),
    (input.data.all (fun c => c.isWhitespace) = true → g.findExpansions input = []) ∧
    (input.data.all (fun c => c.isWhitespace) = false →
      ∀ w, w ∈ g.findExpansions input ↔
        w ∈ g.dictWords ∧ isAnchoredSubseq input.data w.data = true) ∧
    (∀ (a : Char) (as : List Char) (b : Char) (bs : List Char),
      isAnchoredSubseq (a :: as) (b :: bs) = true ↔ a = b ∧ List.Sublist as bs) := by
  intro g input
  refine ⟨?_, ?_, ?_⟩
  · intro h
    unfold GenTest.findExpansions
    rw [if_pos h]
  · intro h w
    unfold GenTest.findExpansions
    rw [if_neg (by simp [h])]
    exact List.mem_filter
  · intro a as b bs
    show (a = b && isSubseqChars as bs) = true ↔ a = b ∧ List.Sublist as bs
    rw [Bool.and_eq_true, decide_eq_true_eq, isSubseqChars_iff]

/-- C7 witness: on the dictionary of the part_001 test, the input st is
not whitespace-only and the entry string is returned for it, while the
whitespace-only input consisting of one space yields the empty
result. -/
theorem claim_C7_witness :
    ("st".data.all (fun c => c.isWhitespace) = false) ∧
    "string" ∈ GenTest.findExpansions genTestFixture "st" ∧
    (" ".data.all (fun c => c.isWhitespace) = true) ∧
    GenTest.findExpansions genTestFixture " " = [] := by
  refine ⟨by decide, ?_, by decide, ?_⟩
  · exact ((claim_C7 genTestFixture "st").2.1 (by decide) "string").mpr ⟨by decide, by decide⟩
  · exact (claim_C7 genTestFixture " ").1 (by decide)

/-- C7 counterexample: the claim (and the spec sentence behind it)
promise every dictionary entry of which the word is a plain
order-preserving subsequence.  The word len is such a subsequence of
the dictionary entry riflemen, yet the repository test mandates that
findExpansions of len return exactly lender and length; the word-level
reading of the claim, computed by findExpansionsSubseq, returns
riflemen as well, contradicting the test expectation quoted in the
claim sources. -/
theorem claim_C7_counterexample :
    List.Sublist "len".data "riflemen".data ∧
    "riflemen" ∈ GenTest.dictWords genTestFixture ∧
    GenTest.findExpansions genTestFixture "len" = ["lender", "length"] ∧
    "riflemen" ∉ GenTest.findExpansions genTestFixture "len" ∧
    findExpansionsSubseq genTestFixture "len" = ["riflemen", "lender", "length"] := by
  refine ⟨by decide, by decide, by decide, by decide, by decide⟩

/-! ### Best-split selection -/

theorem Frac.ble_refl (a : Frac) : a.ble a = true :=
  (Frac.ble_iff a a).mpr (le_refl _)

theorem fbStep_fst_le (a x : potentialSplit) :
    a.highestCohesion.toRat ≤ (fbStep a x).highestCohesion.toRat := by
  unfold fbStep
  by_cases h : Frac.blt a.highestCohesion x.highestCohesion = true
  · rw [if_pos h]
    exact le_of_lt ((Frac.blt_iff _ _).mp h)
  · rw [if_neg h]

theorem fbStep_snd_le (a x : potentialSplit) :
    x.highestCohesion.toRat ≤ (fbStep a x).highestCohesion.toRat := by
  unfold fbStep
  by_cases h : Frac.blt a.highestCohesion x.highestCohesion = true
  · rw [if_pos h]
  · rw [if_neg h]
    exact not_lt.mp (fun hc => h ((Frac.blt_iff _ _).mpr hc))

theorem foldl_fb_ge : ∀ (cs : List potentialSplit) (c x : potentialSplit), x ∈ c :: cs →
    x.highestCohesion.toRat ≤ (cs.foldl fbStep c).highestCohesion.toRat := by
  intro cs
  induction cs with
  | nil =>
    intro c x hx
    rcases List.mem_cons.mp hx with h | h
    · subst h
      exact le_refl _
    · cases h
  | cons y ys ih =>
    intro c x hx
    rw [List.foldl_cons]
    rcases List.mem_cons.mp hx with h | h
    · subst h
      exact le_trans (fbStep_fst_le x y) (ih (fbStep x y) _ (List.mem_cons_self _ _))
    · rcases List.mem_cons.mp h with h2 | h2
      · subst h2
        exact le_trans (fbStep_snd_le c x) (ih (fbStep c x) _ (List.mem_cons_self _ _))
      · exact ih (fbStep c y) x (List.mem_cons_of_mem _ h2)

theorem foldl_fb_firstwins : ∀ (cs : List potentialSplit) (c : potentialSplit),
    cs.foldl fbStep c = c ∨
    (cs.find? (fun x => Frac.ble (cs.foldl fbStep c).highestCohesion x.highestCohesion)
        = some (cs.foldl fbStep c) ∧
      c.highestCohesion.toRat < (cs.foldl fbStep c).highestCohesion.toRat) := by
  intro cs
  induction cs with
  | nil => intro c; exact Or.inl rfl
  | cons y ys ih =>
    intro c
    rw [List.foldl_cons]
    by_cases hb : Frac.blt c.highestCohesion y.highestCohesion = true
    · have hstep : fbStep c y = y := by unfold fbStep; rw [if_pos hb]
      rw [hstep]
      have hcy : c.highestCohesion.toRat < y.highestCohesion.toRat := (Frac.blt_iff _ _).mp hb
      right
      rcases ih y with h1 | h1
      · rw [h1]
        refine ⟨?_, hcy⟩
        exact List.find?_cons_of_pos _ (Frac.ble_refl _)
      · obtain ⟨hfind, hlt⟩ := h1
        refine ⟨?_, lt_trans hcy hlt⟩
        rw [List.find?_cons_of_neg]
        · exact hfind
        · exact fun hc => absurd ((Frac.ble_iff _ _).mp hc) (not_le.mpr hlt)
    · have hstep : fbStep c y = c := by unfold fbStep; rw [if_neg hb]
      rw [hstep]
      have hyc : y.highestCohesion.toRat ≤ c.highestCohesion.toRat :=
        not_lt.mp (fun hc => hb ((Frac.blt_iff _ _).mpr hc))
      rcases ih c with h1 | h1
      · exact Or.inl h1
      · obtain ⟨hfind, hlt⟩ := h1
        right
        refine ⟨?_, hlt⟩
        rw [List.find?_cons_of_neg]
        · exact hfind
        · exact fun hc => absurd ((Frac.ble_iff _ _).mp hc) (not_le.mpr (lt_of_le_of_lt hyc hlt))

/-- C8: findBestSplit of the empty list is the zero value (empty split
string, no softwords); every candidate in the list has cohesion at most
that of the returned candidate (stated over the rational values of the
exact cohesion fractions); and the first candidate whose cohesion
reaches the returned cohesion is the returned candidate itself — the
first encountered wins ties. -/
theorem claim_C8 :
    findBestSplit [] = emptyPotentialSplit ∧
    (∀ (l : List potentialSplit) (c : potentialSplit), c ∈ l →
      c.highestCohesion.toRat ≤ (findBestSplit l).highestCohesion.toRat) ∧
    (∀ l : List potentialSplit, l ≠ [] →
      l.find? (fun x => Frac.ble (findBestSplit l).highestCohesion x.highestCohesion)
        = some (findBestSplit l)) := by
  refine ⟨rfl, ?_, ?_⟩
  · intro l c hc
    cases l with
    | nil => cases hc
    | cons h t =>
      unfold findBestSplit
      exact foldl_fb_ge t h c hc
  · intro l hl
    cases l with
    | nil => exact absurd rfl hl
    | cons h t =>
      have he : findBestSplit (h :: t) = t.foldl fbStep h := rfl
      rw [he]
      rcases foldl_fb_firstwins t h with h1 | h1
      · rw [h1]
        exact List.find?_cons_of_pos _ (Frac.ble_refl _)
      · obtain ⟨hfind, hlt⟩ := h1
        rw [List.find?_cons_of_neg]
        · exact hfind
        · exact fun hc => absurd ((Frac.ble_iff _ _).mp hc) (not_le.mpr hlt)

/-- C8 witness: on the three candidates of the part_001 test (cohesion
values 2.3432 + 2.0011, 1.9432 + 0.9011, and none), the middle-ranked
candidate is bounded by the returned one, and the returned candidate is
the first reaching its own cohesion. -/
theorem claim_C8_witness :
    notSoBadSplitFixture ∈ [badSplitFixture, bestSplitFixture, notSoBadSplitFixture] ∧
    notSoBadSplitFixture.highestCohesion.toRat ≤
      (findBestSplit
        [badSplitFixture, bestSplitFixture, notSoBadSplitFixture]).highestCohesion.toRat ∧
    ([badSplitFixture, bestSplitFixture, notSoBadSplitFixture] : List potentialSplit) ≠ [] ∧
    List.find?
        (fun x => Frac.ble
          (findBestSplit [badSplitFixture, bestSplitFixture, notSoBadSplitFixture]).highestCohesion
          x.highestCohesion)
        [badSplitFixture, bestSplitFixture, notSoBadSplitFixture]
      = some (findBestSplit [badSplitFixture, bestSplitFixture, notSoBadSplitFixture]) := by
  refine ⟨by decide, ?_, by decide, ?_⟩
  · exact claim_C8.2.1 _ notSoBadSplitFixture (by decide)
  · exact claim_C8.2.2 _ (by decide)

/-- C9 (amended): Expand first lowercases the token and then checks the
three lists in source order — stoplist, then phrases, then known
words: a stoplist member expands to itself; otherwise a token with a
non-empty phrase entry expands to the hyphen-separated parts of the
phrase; otherwise a known single word expands to itself; otherwise
there is no result; and the error component is nil on every path.  The
amendment relative to the claim is the precedence: a token that is both
a known word and a phrase key follows the phrase branch, not the
known-words branch. -/
theorem claim_C9 : ∀ (b : Basic) (token : String),
    (b.stopList (toLowerStr token) = true →
      b.Expand token = (some [toLowerStr token], none)) ∧
    (b.stopList (toLowerStr token) = false → b.srcPhrases (toLowerStr token) ≠ "" →
      b.Expand token = (some (splitOnCharStr '-' (b.srcPhrases (toLowerStr token))), none)) ∧
    (b.stopList (toLowerStr token) = false → b.srcPhrases (toLowerStr token) = "" →
      b.srcWords (toLowerStr token) = true →
      b.Expand token = (some [toLowerStr token], none)) ∧
    (b.stopList (toLowerStr token) = false → b.srcPhrases (toLowerStr token) = "" →
      b.srcWords (toLowerStr token) = false →
      b.Expand token = (none, none)) ∧
    (b.Expand token).2 = none := by
  intro b token
  unfold Basic.Expand
  dsimp only
  refine ⟨?_, ?_, ?_, ?_, ?_⟩
  · intro h
    rw [if_pos h]
  · intro h1 h2
    rw [if_neg (by simp [h1]), if_pos h2]
  · intro h1 h2 h3
    rw [if_neg (by simp [h1]), if_neg (by simp [h2]), if_pos h3]
  · intro h1 h2 h3
    rw [if_neg (by simp [h1]), if_neg (by simp [h2]), if_neg (by simp [h3])]
  · split
    · rfl
    · split
      · rfl
      · split
        · rfl
        · rfl

/-- C9 witness: each branch of the amended contract at a concrete
instance — the stop word Dog folds to dog and expands to itself, cat
expands to the phrase parts [cat, fish], the known word egg expands to
itself, and an unknown token yields no result, never an error. -/
theorem claim_C9_witness :
    Basic.Expand basicBranches "Dog" = (some ["dog"], none) ∧
    Basic.Expand basicBranches "cat" = (some ["cat", "fish"], none) ∧
    Basic.Expand basicBranches "egg" = (some ["egg"], none) ∧
    Basic.Expand basicBranches "x" = (none, none) := by
  refine ⟨?_, ?_, ?_, ?_⟩
  · exact (claim_C9 basicBranches "Dog").1 (by decide)
  · exact (claim_C9 basicBranches "cat").2.1 (by decide) (by decide)
  · exact (claim_C9 basicBranches "egg").2.2.1 (by decide) (by decide) (by decide)
  · exact (claim_C9 basicBranches "x").2.2.2.1 (by decide) (by decide) (by decide)

/-- C9 counterexample: on a Basic instance where foo is simultaneously
a known single word and the key of the phrase foo-bar, the claim as
stated promises the single-element result [foo] because the folded
token is in the known-words list; the source checks the phrase map
first and returns the phrase parts [foo, bar] instead. -/
theorem claim_C9_counterexample :
    basicOverlap.srcWords (toLowerStr "Foo") = true ∧
    Basic.Expand basicOverlap "Foo" = (some ["foo", "bar"], none) ∧
    (some ["foo", "bar"] : Option (List String)) ≠ some ["foo"] :=
  ⟨by decide, by decide, by decide⟩

/-! ### The repository test fixtures, replayed against the model -/

theorem test_generatePotentialSplits_car :
    ((generatePotentialSplits "car").map potentialSplit.split).Perm
      ["car", "c_ar", "c_a_r", "ca_r"] := by decide

theorem test_generatePotentialSplits_bond :
    ((generatePotentialSplits "bond").map potentialSplit.split).Perm
      ["bond", "b_ond", "b_o_nd", "b_on_d", "bo_nd", "bo_n_d", "bon_d"] := by decide

theorem test_newPotentialSplit :
    newPotentialSplit "foo_bar" = ⟨"foo_bar", [⟨"foo", []⟩, ⟨"bar", []⟩]⟩ ∧
    newPotentialSplit "" = ⟨"", []⟩ := by decide

theorem test_findExpansions_rows :
    GenTest.findExpansions genTestFixture "st" = ["string", "steer", "set"] ∧
    GenTest.findExpansions genTestFixture "rlen" = ["riflemen"] ∧
    GenTest.findExpansions genTestFixture "str" = ["string", "steer"] ∧
    GenTest.findExpansions genTestFixture "len" = ["lender", "length"] ∧
    GenTest.findExpansions genTestFixture "" = [] ∧
    GenTest.findExpansions genTestFixture " " = [] := by decide

theorem test_softword_highestCohesion :
    softword.highestCohesion ⟨"foo", []⟩ = Frac.ofInt 0 ∧
    softword.highestCohesion ⟨"foo", [⟨"floor", ⟨12345, 10000, by decide⟩⟩]⟩
      = ⟨12345, 10000, by decide⟩ ∧
    softword.highestCohesion
      ⟨"foo", [⟨"floor", ⟨12345, 10000, by decide⟩⟩, ⟨"foot", ⟨21123, 10000, by decide⟩⟩,
        ⟨"football", ⟨-1123, 10000, by decide⟩⟩]⟩ = ⟨21123, 10000, by decide⟩ := by decide

theorem test_softword_bestExpansion :
    softword.bestExpansion ⟨"foo", []⟩ = "foo" ∧
    softword.bestExpansion
      ⟨"foo", [⟨"floor", ⟨12345, 10000, by decide⟩⟩, ⟨"foot", ⟨21123, 10000, by decide⟩⟩,
        ⟨"football", ⟨-1123, 10000, by decide⟩⟩]⟩ = "foot" := by decide

theorem test_potentialSplit_cohesion_sum :
    (potentialSplit.highestCohesion
      ⟨"bar_bum",
       [⟨"bar", [⟨"bar", ⟨12345, 10000, by decide⟩⟩]⟩,
        ⟨"bum", [⟨"bump", ⟨5551, 10000, by decide⟩⟩,
          ⟨"bumpy", ⟨1999, 10000, by decide⟩⟩]⟩]⟩).toRat
      = (17896 : ℚ) / 10000 := by
  norm_num [potentialSplit.highestCohesion, softword.highestCohesion, Frac.add, Frac.blt,
    Frac.ofInt, Frac.toRat]

theorem test_potentialSplit_bestExpansion :
    potentialSplit.bestExpansion
      ⟨"bar_bum",
       [⟨"bar", [⟨"bar", ⟨12345, 10000, by decide⟩⟩]⟩,
        ⟨"bum", [⟨"bump", ⟨5551, 10000, by decide⟩⟩,
          ⟨"bumpy", ⟨1999, 10000, by decide⟩⟩]⟩]⟩ = "bar_bump" ∧
    potentialSplit.bestExpansion ⟨"", []⟩ = "" := by decide

theorem test_findBestSplit :
    findBestSplit [] = emptyPotentialSplit ∧
    findBestSplit [bestSplitFixture] = bestSplitFixture ∧
    findBestSplit [badSplitFixture, bestSplitFixture, notSoBadSplitFixture]
      = bestSplitFixture := by decide
